import Mathlib

/-!
Verification development for the MyGit snapshot storage subsystem
(object store, staging area, commit chain, branch references).

The C sources are shallowly embedded as follows.

File contents and lines are lists of characters (a text file is a list of
lines, each line stored without its trailing newline, exactly the view that
fgets plus a strcspn-based chomp produces); a file that may be absent is an
Option.  Raw working-directory file contents are lists of byte values (Nat),
since the NUL-truncation behaviour of the C-string pipeline matters.  C
machine integers are modelled as Nat / Int with explicit mod 2^64 where the
unsigned long hash wraps; the C int commit ids are modelled as unbounded Int
(integer overflow of ids after 2^31 commits is out of scope, as are I/O
failures: every fopen/fprintf is assumed to succeed).  fgets is modelled at
line granularity (lines are assumed shorter than the 1024-byte MAX_LINE
buffer, so fgets returns whole lines); text written to a line-oriented file
is split at newline characters when appended, which faithfully reproduces
the way embedded newline characters in a printf argument produce several
lines for later readers.
-/

namespace MyGit

/-- A line of a text file, without its trailing newline. -/
abbrev Line := List Char

/-- Character-class test matching the C isdigit on ASCII decimal digits. -/
def isDigitC (c : Char) : Bool := 48 ≤ c.toNat && c.toNat ≤ 57

/-- Character-class test matching the C isspace (space, tab, newline,
vertical tab, form feed, carriage return). -/
def isSpaceC (c : Char) : Bool :=
  c == ' ' || c == '\t' || c == '\n' || c == '\r' ||
  c == Char.ofNat 11 || c == Char.ofNat 12

/-- Value of a list of decimal digit characters, most significant first,
as accumulated left to right by strtoul / sscanf style parsing. -/
def digitsVal (l : Line) : Nat := l.foldl (fun a c => a * 10 + (c.toNat - 48)) 0

/-- Decimal digit character for a digit value, as printf %u emits it. -/
def decChar (d : Nat) : Char := Char.ofNat (48 + d)

/-- Fuelled worker for decimal printing; the fuel argument only serves to
make the recursion structural, dec supplies enough of it. -/
def decAux : Nat → Nat → List Char → List Char
  | 0, _, acc => acc
  | fuel + 1, n, acc =>
    if n < 10 then decChar n :: acc
    else decAux fuel (n / 10) (decChar (n % 10) :: acc)

/-- Decimal representation of an unsigned value, as printf %lu prints it. -/
def dec (n : Nat) : List Char := decAux (n + 1) n []

/-- Decimal representation of a signed value, as printf %d prints it. -/
def decInt (i : Int) : List Char :=
  if i < 0 then '-' :: dec i.natAbs else dec i.toNat

/-- Shared digit step of strtoul: take the leading run of decimal digits of
the remaining input and produce the converted unsigned long, clamping to
ULONG_MAX on overflow and negating modulo 2^64 under a minus sign. -/
def strtoulDigits (r : Line) (neg : Bool) : Nat :=
  if 2 ^ 64 ≤ digitsVal (r.takeWhile isDigitC) then 2 ^ 64 - 1
  else if neg then (2 ^ 64 - digitsVal (r.takeWhile isDigitC)) % 2 ^ 64
  else digitsVal (r.takeWhile isDigitC)

/-- Model of strtoul(s, NULL, 10): skip leading white space, accept an
optional sign, then convert the leading digit run (0 if there is none). -/
def strtoul10 (s : Line) : Nat :=
  match s.dropWhile isSpaceC with
  | [] => 0
  | c :: r =>
    if c == '-' then strtoulDigits r true
    else if c == '+' then strtoulDigits r false
    else strtoulDigits (c :: r) false

/-- Digit run for signed conversion: none when no digit is present (the
sscanf %d conversion then fails), otherwise the accumulated value. -/
def scanDigits (r : Line) : Option Nat :=
  if (r.takeWhile isDigitC).isEmpty then none
  else some (digitsVal (r.takeWhile isDigitC))

/-- Model of the %d conversion of sscanf / the digit part of atoi: skip
white space, accept an optional sign, require at least one digit. -/
def scanIntAt (s : Line) : Option Int :=
  match s.dropWhile isSpaceC with
  | [] => none
  | c :: r =>
    if c == '-' then (scanDigits r).map (fun n => -(n : Int))
    else if c == '+' then (scanDigits r).map (fun n => (n : Int))
    else (scanDigits (c :: r)).map (fun n => (n : Int))

/-- Model of atoi: the converted value, or 0 when no digits follow the
optional sign. -/
def atoiI (s : Line) : Int := (scanIntAt s).getD 0

/-- Literal match of a tag at the start of a line, as the literal part of a
sscanf format string matches. -/
def tagMatch : Line → Line → Bool
  | [], _ => true
  | _ :: _, [] => false
  | a :: as, b :: bs => a == b && tagMatch as bs

/-- Truncation at the first newline or carriage return, the effect of the
idiom line[strcspn(line, "\x5cn\x5cr")] = 0 applied to an fgets line. -/
def chomp (l : Line) : Line := l.takeWhile (fun c => c != '\n' && c != '\r')

/-- Test for a comment line, the C check line[0] == '#'. -/
def startsHash : Line → Bool
  | [] => false
  | c :: _ => c == '#'

/-- First strtok(s, "|") token: skip leading separators, then the run up to
the next separator; none when nothing but separators remains. -/
def tok1 (s : Line) : Option Line :=
  match s.dropWhile (fun c => c == '|') with
  | [] => none
  | t => some (t.takeWhile (fun c => c != '|'))

/-- Remainder of the line after the first token, still starting at the
separator, from which strtok(NULL, "|") continues. -/
def tokRest (s : Line) : Line :=
  (s.dropWhile (fun c => c == '|')).dropWhile (fun c => c != '|')

/-- Second strtok(NULL, "|") token of a line. -/
def tok2 (s : Line) : Option Line := tok1 (tokRest s)

/-- Splitting of a byte stream into fgets lines: pieces between newline
characters, with a trailing piece only when the stream does not end in a
newline. -/
def splitNl : List Char → List (List Char)
  | [] => []
  | c :: t =>
    if c = '\n' then [] :: splitNl t
    else
      match splitNl t with
      | [] => [[c]]
      | l :: ls => (c :: l) :: ls

/-- Signed char value of a byte, as the int promotion of a char reads it on
a signed-char platform (utils.c iterates int c = *content++). -/
def signedByte (b : Nat) : Int := if b < 128 then (b : Int) else (b : Int) - 256

/-- One djb2 step hash * 33 + c on a 64-bit unsigned long, with the char
operand promoted as a signed byte and the sum wrapped modulo 2^64. -/
def hashStep (h : Nat) (b : Nat) : Nat := (((h * 33 : Int) + signedByte b) % (2 ^ 64 : Int)).toNat

/-- Value of a byte buffer read as a C string: the bytes before the first
NUL terminator. -/
def cstr (c : List Nat) : List Nat := c.takeWhile (fun b => b ≠ 0)

/-- Embedding of hash_content (utils.c): djb2 over the C string handed to
it, so iteration stops at the first NUL byte of the buffer. -/
def hash_content (c : List Nat) : Nat := (cstr c).foldl hashStep 5381

/-- Header line that init.c and clear_staging_area write into staging.dat. -/
def stagingHeader : Line := "# MyGit Staging Area".toList

/-- Header line that init.c writes into commits.dat. -/
def commitsHeader : Line := "# MyGit Commit History".toList

/-- Embedding of count_staged_files (commit command file): 0 when
staging.dat does not exist, else the number of lines that are neither
comments nor empty after the chomp. -/
def countStagedFiles : Option (List Line) → Nat
  | none => 0
  | some ls => (ls.filter (fun l => !(startsHash (chomp l) || (chomp l).isEmpty))).length

/-- Per-line parse shared by the staging.dat readers: chomp, skip comment
and empty lines, then split at the bar into filename and fingerprint text,
the latter converted by strtoul. -/
def parseLine (l : Line) : Option (Line × Nat) :=
  if startsHash (chomp l) || (chomp l).isEmpty then none
  else
    match tok1 (chomp l), tok2 (chomp l) with
    | some f, some hs => some (f, strtoul10 hs)
    | _, _ => none

/-- Entries of a staging file content under the common line format. -/
def stagingEntries (ls : List Line) : List (Line × Nat) := ls.filterMap parseLine

/-- Entries of a possibly absent staging file. -/
def stagingEntriesO (st : Option (List Line)) : List (Line × Nat) :=
  stagingEntries (st.getD [])

/-- Embedding of is_already_staged (add command file): false when
staging.dat does not exist, else whether some non-comment, non-empty line
has the given filename as its first token. -/
def isAlreadyStaged (st : Option (List Line)) (f : Line) : Bool :=
  match st with
  | none => false
  | some ls =>
    ls.any (fun l =>
      if startsHash l then false
      else
        let lc := chomp l
        if lc.isEmpty then false
        else
          match tok1 lc with
          | some n => n == f
          | none => false)

/-- Keep test of remove_from_staging: a line is kept when its first token
is missing or differs from the filename being removed. -/
def keepLine (f : Line) (l : Line) : Bool :=
  match tok1 (chomp l) with
  | none => true
  | some n => n != f

/-- Lines that remove_from_staging copies into its in-memory buffer. -/
def keptLines (ls : List Line) (f : Line) : List Line := ls.filter (keepLine f)

/-- Embedding of remove_from_staging (add command file): no effect when
staging.dat does not exist, else rewrite the file with exactly the kept
lines.  The C routine stages the kept lines through a fixed char
lines[100][MAX_LINE] buffer; this embedding is faithful exactly when every
store into that buffer is in bounds, the condition storesInBounds below. -/
def removeFromStaging (st : Option (List Line)) (f : Line) : Option (List Line) :=
  match st with
  | none => none
  | some ls => some (keptLines ls f)

/-- Safety condition of remove_from_staging: every index "count" used to
store a kept line into the 100-row buffer stays below 100, which holds
exactly when at most 100 lines are kept. -/
def storesInBounds (ls : List Line) (f : Line) : Prop := (keptLines ls f).length ≤ 100

/-- Text of a staging entry as mygit_add appends it, filename, bar,
decimal fingerprint (the trailing newline is added by the append). -/
def stagedLineText (f : Line) (h : Nat) : Line := f ++ '|' :: dec h

/-- Append of newline-terminated text to a line file opened with mode "a",
creating the file when absent; embedded newline characters in the text
produce several lines, as fgets readers will see them. -/
def appendStaging (st : Option (List Line)) (txt : Line) : Option (List Line) :=
  some (st.getD [] ++ splitNl (txt ++ ['\n']))

/-- Staging-area step of mygit_add: remove the previous entry when the
filename is already staged, then append the new entry at the end. -/
def stageEntry (st : Option (List Line)) (f : Line) (h : Nat) : Option (List Line) :=
  appendStaging (if isAlreadyStaged st f then removeFromStaging st f else st) (stagedLineText f h)

/-- Object store contents: blob file content indexed by the fingerprint
that names the blob file. -/
abbrev ObjStore := Nat → Option (List Nat)

/-- Embedding of save_blob (add command file): no write when a blob file
for the hash exists, else persist the content, as write_file prints it with
%s, hence truncated at the first NUL.  The Bool records whether a durable
write was performed. -/
def save_blob (ob : ObjStore) (content : List Nat) (h : Nat) : ObjStore × Bool :=
  if (ob h).isSome then (ob, false)
  else (fun k => if k = h then some (cstr content) else ob k, true)

/-- Spec-level put of the Object Store: save_blob at the fingerprint of the
content, exactly the pairing mygit_add performs. -/
def putBlob (ob : ObjStore) (c : List Nat) : ObjStore × Bool := save_blob ob c (hash_content c)

/-- Spec-level get of the Object Store: read the blob file through
read_file, whose buffer holds at most MAX_CONTENT - 1 = 9999 bytes; none
models the NotFound falure of a missing blob. -/
def getBlob (ob : ObjStore) (h : Nat) : Option (List Nat) := (ob h).map (fun v => v.take 9999)

/-- Durable repository state: the five stores of the data model.  refs maps
a branch name to the content of its reference file; headF is the HEAD file;
workdir files are passed to the add operation directly. -/
structure Repo where
  staging : Option (List Line)
  commits : Option (List Line)
  refs : Line → Option Line
  headF : Option Line
  objects : ObjStore

/-- Embedding of mygit_add (add command file) for an existing working file
with byte content c: read at most 9999 bytes, fingerprint the buffer as a C
string, save the blob, then upsert the staging entry.  Returns 0 as the
command result (I/O failures are assumed absent). -/
def mygitAdd (s : Repo) (f : Line) (c : List Nat) : Repo × Int :=
  let buf := c.take 9999
  let h := hash_content buf
  { s with
    objects := (save_blob s.objects buf h).1
    staging := stageEntry s.staging f h }
  |> fun s2 => (s2, 0)

/-- Tag of a commit id line in commits.dat. -/
def commitTag : Line := ['C', 'O', 'M', 'M', 'I', 'T', ':']

/-- Tag of a parent id line in commits.dat. -/
def parentTag : Line := ['P', 'A', 'R', 'E', 'N', 'T', ':']

/-- Tag of a message line in commits.dat. -/
def msgTag : Line := ['M', 'S', 'G', ':']

/-- Tag of a timestamp line in commits.dat. -/
def timeTag : Line := ['T', 'I', 'M', 'E', ':']

/-- Tag of a branch line in commits.dat. -/
def branchTag : Line := ['B', 'R', 'A', 'N', 'C', 'H', ':']

/-- Tag of a filename list line in commits.dat. -/
def filesTag : Line := ['F', 'I', 'L', 'E', 'S', ':']

/-- Tag of a hash list line in commits.dat. -/
def hashesTag : Line := ['H', 'A', 'S', 'H', 'E', 'S', ':']

/-- End-of-record marker line of commits.dat. -/
def endTag : Line := ['E', 'N', 'D']

/-- Embedding of the sscanf(line, "COMMIT:%d", ...) probe of
get_next_commit_id: the id when the line carries one, none otherwise. -/
def scanCommitId (l : Line) : Option Int :=
  if tagMatch commitTag l then scanIntAt (l.drop 7) else none

/-- Probe for a PARENT: line of a record, per the format save_commit
writes (the log reader itself is not among the provided sources, so this
reader follows the documented self-delimiting record format). -/
def scanParentId (l : Line) : Option Int :=
  if tagMatch parentTag l then scanIntAt (l.drop 7) else none

/-- Embedding of get_next_commit_id (utils.c): 1 when commits.dat does not
exist, else one more than the largest id found on COMMIT: lines (0 when
none is found). -/
def nextCommitId : Option (List Line) → Int
  | none => 1
  | some ls =>
    ls.foldl (fun mx l =>
      match scanCommitId l with
      | some v => if v > mx then v else mx
      | none => mx) 0 + 1

/-- Ordered ids of the COMMIT: lines of the commit log, the appearance
order of the records in the append-only file. -/
def commitIdsOf (c : Option (List Line)) : List Int := (c.getD []).filterMap scanCommitId

/-- Record walk pairing each COMMIT: line with the next PARENT: line, the
observable parent linkage of the stored records; returns the pairs and the
pending unpaired commit id. -/
def cppWalk : List Line → Option Int → List (Int × Int) × Option Int
  | [], cur => ([], cur)
  | l :: ls, cur =>
    match scanCommitId l with
    | some v => cppWalk ls (some v)
    | none =>
      match scanParentId l, cur with
      | some w, some v =>
        let r := cppWalk ls none
        ((v, w) :: r.1, r.2)
      | some _, none => cppWalk ls none
      | none, _ => cppWalk ls cur

/-- Pairs of commit id and stored parent id of the commit log, in record
order. -/
def commitParentPairs (c : Option (List Line)) : List (Int × Int) :=
  (cppWalk (c.getD []) none).1

/-- Embedding of the read_staged_files loop (commit command file): walk the
staging lines with the running file_count, skip comments and empty lines,
stop at the eleventh countable line because the Commit struct holds at most
10 files, and keep an entry only when both strtok tokens are present. -/
def readStagedLoop : List Line → Nat → List (Line × Nat)
  | [], _ => []
  | l :: ls, k =>
    let lc := chomp l
    if startsHash lc || lc.isEmpty then readStagedLoop ls k
    else if 10 ≤ k then []
    else
      match tok1 lc, tok2 lc with
      | some f, some hs => (f, strtoul10 hs) :: readStagedLoop ls (k + 1)
      | _, _ => readStagedLoop ls k

/-- Embedding of read_staged_files: fails (returns none, the -1 of the C
function) when staging.dat does not exist, else fills the commit entries
through the bounded loop. -/
def readStagedFiles : Option (List Line) → Option (List (Line × Nat))
  | none => none
  | some ls => some (readStagedLoop ls 0)

/-- Comma-joined list as the save_commit loops print it: no comma before
the first item, a comma before every later one. -/
def joinComma : List Line → Line
  | [] => []
  | [x] => x
  | x :: y :: t => x ++ ',' :: joinComma (y :: t)

/-- Lines that save_commit (commit command file) appends to commits.dat
for one record; every fprintf ends in a newline, and embedded newline
characters inside a printed field split into further lines exactly as
later fgets readers will see them. -/
def commitRecordLines (id : Int) (msg ts bn : Line) (parent : Int)
    (es : List (Line × Nat)) : List Line :=
  splitNl (commitTag ++ decInt id ++ ['\n'])
  ++ splitNl (msgTag ++ msg ++ ['\n'])
  ++ splitNl (timeTag ++ ts ++ ['\n'])
  ++ splitNl (branchTag ++ bn ++ ['\n'])
  ++ splitNl (parentTag ++ decInt parent ++ ['\n'])
  ++ splitNl (filesTag ++ joinComma (es.map (fun e => e.1)) ++ ['\n'])
  ++ splitNl (hashesTag ++ joinComma (es.map (fun e => dec e.2)) ++ ['\n'])
  ++ [endTag]

/-- Drop of a single trailing newline, as get_current_branch performs. -/
def stripTrailNl (l : Line) : Line :=
  match l.getLast? with
  | some c => if c = '\n' then l.dropLast else l
  | none => l

/-- Embedding of get_current_branch (utils.c): the HEAD file content read
into a 50-byte buffer (hence at most 49 bytes), with one trailing newline
stripped; the literal main when HEAD cannot be read. -/
def currentBranch : Option Line → Line
  | none => "main".toList
  | some h => stripTrailNl (h.take 49)

/-- Embedding of get_last_commit_id_on_branch (commit command file): 0 when
the branch reference file does not exist, else atoi of its content (the
64-byte read buffer is modelled as large enough for any id text, in line
with the unbounded-int idealization). -/
def lastCommitIdOnBranch (refs : Line → Option Line) (bn : Line) : Int :=
  match refs bn with
  | none => 0
  | some content => atoiI content

/-- Embedding of mygit_commit (commit command file).  The timestamp is the
external get_timestamp result, passed as a parameter.  Empty staging is
rejected up front with result -1 and no state change; otherwise the id is
allocated by get_next_commit_id, the parent resolved from the branch
reference (sentinel -1 when the head is 0), the staged entries snapshotted,
the record appended, the branch reference overwritten with the new id, and
the staging area cleared to its header line. -/
def mygitCommit (s : Repo) (m ts : Line) : Repo × Int :=
  if countStagedFiles s.staging = 0 then (s, -1)
  else
    let id := nextCommitId s.commits
    let msg := m.take 255
    let bn := currentBranch s.headF
    let last := lastCommitIdOnBranch s.refs bn
    let parent : Int := if last = 0 then -1 else last
    match readStagedFiles s.staging with
    | none => (s, -1)
    | some es =>
      ({ s with
          commits := some (s.commits.getD [] ++ commitRecordLines id msg ts bn parent es)
          refs := fun b => if b = bn then some (decInt id) else s.refs b
          staging := some [stagingHeader] }, 0)

/-- Repository operations of the core: staging an existing working file
with its current byte content, and committing with a message and the
current timestamp. -/
inductive Op where
  | addF (f : Line) (c : List Nat) : Op
  | commitF (m : Line) (ts : Line) : Op

/-- State reached after one operation. -/
def applyOp (s : Repo) : Op → Repo
  | .addF f c => (mygitAdd s f c).1
  | .commitF m ts => (mygitCommit s m ts).1

/-- State reached after a sequence of operations. -/
def runOps (s : Repo) (ops : List Op) : Repo := ops.foldl applyOp s

/-- Number of successful commits performed along an operation sequence: a
commit succeeds exactly when the staging area is non-empty when it runs. -/
def countSucc : Repo → List Op → Nat
  | _, [] => 0
  | s, op :: rest =>
    (match op with
     | .commitF _ _ => if countStagedFiles s.staging = 0 then 0 else 1
     | .addF _ _ => 0) + countSucc (applyOp s op) rest

/-- Repository state immediately after mygit_init for branch bn: header
lines in staging.dat and commits.dat, HEAD naming the branch, the branch
reference holding 0, no blobs (init.c creates exactly this for main; a
fresh branch generalizes the branch name). -/
def freshBranchRepo (bn : Line) : Repo where
  staging := some [stagingHeader]
  commits := some [commitsHeader]
  refs := fun b => if b = bn then some ['0'] else none
  headF := some bn
  objects := fun _ => none

/-- Expected id sequence 1..n of a fresh-branch history. -/
def idList : Nat → List Int
  | 0 => []
  | n + 1 => idList n ++ [(n + 1 : Int)]

/-- Expected id and parent pairs of a fresh-branch history: commit 1 has
the sentinel parent -1 and commit k + 1 has parent k. -/
def pairList : Nat → List (Int × Int)
  | 0 => []
  | n + 1 => pairList n ++ [((n + 1 : Int), if n = 0 then (-1 : Int) else (n : Int))]

/-- Message and timestamp side condition of an operation: commit arguments
free of newline characters (an embedded newline splits the MSG or TIME
record line when written). -/
@[reducible] def wfOp : Op → Prop
  | .addF _ _ => True
  | .commitF m ts => '\n' ∉ m ∧ '\n' ∉ ts

/-- All operations of a sequence satisfy the side condition. -/
@[reducible] def wfOps : List Op → Prop
  | [] => True
  | op :: rest => wfOp op ∧ wfOps rest

/-- Branch name side condition: free of newline characters and short
enough for the 50-byte branch buffer. -/
@[reducible] def wfBranch (bn : Line) : Prop := '\n' ∉ bn ∧ bn.length ≤ 49

/-- Filename side condition under which the staging line format represents
an entry faithfully: non-empty, free of the bar separator, of newline and
of carriage return characters, and not starting with the comment mark. -/
@[reducible] def wfName (f : Line) : Prop :=
  f ≠ [] ∧ '|' ∉ f ∧ '\n' ∉ f ∧ '\r' ∉ f ∧ f.head? ≠ some '#'

/-! Helper lemmas about decimal printing and parsing. -/

theorem decChar_toNat {d : Nat} (h : d < 10) : (decChar d).toNat = 48 + d := by
  interval_cases d <;> decide

theorem isDigitC_decChar {d : Nat} (h : d < 10) : isDigitC (decChar d) = true := by
  interval_cases d <;> decide

theorem decAux_fuel (f1 f2 n : Nat) (acc : List Char) (h1 : n < f1) (h2 : n < f2) :
    decAux f1 n acc = decAux f2 n acc := by
  induction f1 generalizing f2 n acc with
  | zero => omega
  | succ f1 ih =>
    match f2, h2 with
    | f2 + 1, h2 =>
      simp only [decAux]
      by_cases hn : n < 10
      · simp [hn]
      · simp only [if_neg hn]
        exact ih f2 (n / 10) _ (by omega) (by omega)

theorem decAux_append {fuel n : Nat} (acc : List Char) (h : n < fuel) :
    decAux fuel n acc = decAux fuel n [] ++ acc := by
  induction fuel generalizing n acc with
  | zero => omega
  | succ fuel ih =>
    simp only [decAux]
    by_cases hn : n < 10
    · simp [hn]
    · simp only [if_neg hn]
      have hlt : n / 10 < fuel := by
        have := Nat.div_lt_self (by omega : 0 < n) (by omega : 1 < 10)
        omega
      rw [ih _ hlt, ih [decChar (n % 10)] hlt, List.append_assoc]
      simp

theorem dec_small {n : Nat} (h : n < 10) : dec n = [decChar n] := by
  simp [dec, decAux, h]

theorem dec_step {n : Nat} (h : 10 ≤ n) : dec n = dec (n / 10) ++ [decChar (n % 10)] := by
  have hd : n / 10 < n := Nat.div_lt_self (by omega) (by omega)
  unfold dec
  conv_lhs => simp only [decAux, if_neg (by omega : ¬ n < 10)]
  rw [decAux_fuel n (n / 10 + 1) (n / 10) (decChar (n % 10) :: []) (by omega) (by omega),
    decAux_append _ (by omega)]

theorem dec_all_digits : ∀ n, ∀ c ∈ dec n, isDigitC c = true := by
  have key : ∀ fuel n, n < fuel → ∀ c ∈ dec n, isDigitC c = true := by
    intro fuel
    induction fuel with
    | zero => omega
    | succ fuel ih =>
      intro n hn c hc
      by_cases h10 : n < 10
      · rw [dec_small h10] at hc
        simp only [List.mem_singleton] at hc
        subst hc
        exact isDigitC_decChar h10
      · rw [dec_step (by omega)] at hc
        rcases List.mem_append.1 hc with h | h
        · have hd : n / 10 < n := Nat.div_lt_self (by omega) (by omega)
          exact ih (n / 10) (by omega) c h
        · simp only [List.mem_singleton] at h
          subst h
          exact isDigitC_decChar (Nat.mod_lt _ (by omega))
  exact fun n => key (n + 1) n (by omega)

theorem dec_ne_nil (n : Nat) : dec n ≠ [] := by
  by_cases h : n < 10
  · rw [dec_small h]; simp
  · rw [dec_step (by omega)]; simp

theorem digitsVal_dec (n : Nat) : digitsVal (dec n) = n := by
  have key : ∀ fuel n, n < fuel → digitsVal (dec n) = n := by
    intro fuel
    induction fuel with
    | zero => omega
    | succ fuel ih =>
      intro n hn
      by_cases h10 : n < 10
      · rw [dec_small h10]
        simp [digitsVal, decChar_toNat h10]
      · have hd : n / 10 < n := Nat.div_lt_self (by omega) (by omega)
        rw [dec_step (by omega)]
        simp only [digitsVal, List.foldl_append, List.foldl_cons, List.foldl_nil]
        have := ih (n / 10) (by omega)
        simp only [digitsVal] at this
        rw [this, decChar_toNat (Nat.mod_lt _ (by omega))]
        omega
  exact key (n + 1) n (by omega)

theorem digit_not_space {c : Char} (h : isDigitC c = true) : isSpaceC c = false := by
  simp only [isDigitC, Bool.and_eq_true, decide_eq_true_eq] at h
  simp only [isSpaceC, Bool.or_eq_false_iff, beq_eq_false_iff_ne]
  refine ⟨⟨⟨⟨⟨?_, ?_⟩, ?_⟩, ?_⟩, ?_⟩, ?_⟩ <;>
    (intro he; subst he; revert h; decide)

theorem digit_ne {c c0 : Char} (h : isDigitC c = true) (h0 : c0.toNat < 48 ∨ 57 < c0.toNat) :
    c ≠ c0 := by
  intro he
  subst he
  simp only [isDigitC, Bool.and_eq_true, decide_eq_true_eq] at h
  omega

theorem takeWhileAll {α : Type} {p : α → Bool} {l : List α} (h : ∀ a ∈ l, p a = true) :
    l.takeWhile p = l := by
  induction l with
  | nil => rfl
  | cons a t ih =>
    have h1 := h a (by simp)
    simp only [List.takeWhile_cons, h1, if_true]
    exact congrArg _ (ih (fun x hx => h x (by simp [hx])))

theorem dropWhileNone {α : Type} {p : α → Bool} {l : List α} (h : ∀ a ∈ l, p a = false) :
    l.dropWhile p = l := by
  cases l with
  | nil => rfl
  | cons a t =>
    have h1 := h a (by simp)
    simp [List.dropWhile_cons, h1]

theorem strtoul10_dec {h : Nat} (hlt : h < 2 ^ 64) : strtoul10 (dec h) = h := by
  have hall := dec_all_digits h
  have hdrop : (dec h).dropWhile isSpaceC = dec h :=
    dropWhileNone (fun a ha => digit_not_space (hall a ha))
  have htake : (dec h).takeWhile isDigitC = dec h := takeWhileAll hall
  unfold strtoul10
  rw [hdrop]
  have hne := dec_ne_nil h
  match hd : dec h with
  | [] => exact absurd hd hne
  | c :: r =>
    have hc : isDigitC c = true := hall c (by rw [hd]; simp)
    have hcm : (c == '-') = false := by
      simp only [beq_eq_false_iff_ne]
      exact digit_ne hc (by decide)
    have hcp : (c == '+') = false := by
      simp only [beq_eq_false_iff_ne]
      exact digit_ne hc (by decide)
    simp only [hcm, hcp, Bool.false_eq_true, if_false]
    unfold strtoulDigits
    rw [← hd, htake, digitsVal_dec, if_neg (Nat.not_le.2 hlt)]
    rfl

theorem scanIntAt_dec (n : Nat) : scanIntAt (dec n) = some (n : Int) := by
  have hall := dec_all_digits n
  have hdrop : (dec n).dropWhile isSpaceC = dec n :=
    dropWhileNone (fun a ha => digit_not_space (hall a ha))
  have htake : (dec n).takeWhile isDigitC = dec n := takeWhileAll hall
  unfold scanIntAt
  rw [hdrop]
  have hne := dec_ne_nil n
  match hd : dec n with
  | [] => exact absurd hd hne
  | c :: r =>
    have hc : isDigitC c = true := hall c (by rw [hd]; simp)
    have hcm : (c == '-') = false := by
      simp only [beq_eq_false_iff_ne]
      exact digit_ne hc (by decide)
    have hcp : (c == '+') = false := by
      simp only [beq_eq_false_iff_ne]
      exact digit_ne hc (by decide)
    simp only [hcm, hcp, Bool.false_eq_true, if_false]
    unfold scanDigits
    rw [← hd, htake]
    have : (dec n).isEmpty = false := by
      cases hq : dec n with
      | nil => exact absurd hq hne
      | cons a t => rfl
    simp [this, digitsVal_dec]

theorem scanIntAt_decInt (p : Int) : scanIntAt (decInt p) = some p := by
  by_cases hp : p < 0
  · unfold decInt
    rw [if_pos hp]
    have hall := dec_all_digits p.natAbs
    have hdm : isSpaceC '-' = false := by decide
    unfold scanIntAt
    rw [List.dropWhile_cons, hdm]
    simp only [Bool.false_eq_true, if_false, beq_self_eq_true, if_pos]
    unfold scanDigits
    rw [takeWhileAll hall]
    have hne := dec_ne_nil p.natAbs
    have hemp : (dec p.natAbs).isEmpty = false := by
      cases hq : dec p.natAbs with
      | nil => exact absurd hq hne
      | cons a t => rfl
    simp only [hemp, Bool.false_eq_true, if_false, Option.map_some]
    rw [digitsVal_dec]
    have hx : -((p.natAbs : Nat) : Int) = p := by omega
    simp [hx, abs_of_neg hp]
  · unfold decInt
    rw [if_neg hp, scanIntAt_dec]
    have hx : ((p.toNat : Nat) : Int) = p := by omega
    rw [hx]

theorem atoiI_dec (n : Nat) : atoiI (dec n) = n := by
  unfold atoiI
  rw [scanIntAt_dec]
  rfl

/-! Helper lemmas about lines, tokens and the staging format. -/

theorem dec_char_ne {h : Nat} (c0 : Char) (hc : c0.toNat < 48 ∨ 57 < c0.toNat) :
    c0 ∉ dec h := by
  intro hmem
  have := dec_all_digits h c0 hmem
  simp only [isDigitC, Bool.and_eq_true, decide_eq_true_eq] at this
  omega

theorem chomp_of_clean {l : Line} (hn : '\n' ∉ l) (hr : '\r' ∉ l) : chomp l = l := by
  refine takeWhileAll (fun a ha => ?_)
  simp only [Bool.and_eq_true, bne_iff_ne]
  exact ⟨fun he => hn (he ▸ ha), fun he => hr (he ▸ ha)⟩

theorem splitNl_single {s : Line} (hn : '\n' ∉ s) : splitNl (s ++ ['\n']) = [s] := by
  induction s with
  | nil => rfl
  | cons c t ih =>
    have hc : c ≠ '\n' := fun he => hn (by simp [he])
    have ht : '\n' ∉ t := fun hm => hn (by simp [hm])
    simp only [List.cons_append, splitNl, if_neg hc, List.append_eq, ih ht]

theorem takeWhileAppend {p : Char → Bool} {f r : Line} {b : Char}
    (hf : ∀ a ∈ f, p a = true) (hb : p b = false) :
    (f ++ b :: r).takeWhile p = f := by
  induction f with
  | nil => simp [List.takeWhile_cons, hb]
  | cons a t ih =>
    have h1 := hf a (by simp)
    simp only [List.cons_append, List.takeWhile_cons, h1, if_true]
    exact congrArg _ (ih (fun x hx => hf x (by simp [hx])))

theorem dropWhileAppend {p : Char → Bool} {f r : Line} {b : Char}
    (hf : ∀ a ∈ f, p a = true) (hb : p b = false) :
    (f ++ b :: r).dropWhile p = b :: r := by
  induction f with
  | nil => simp [List.dropWhile_cons, hb]
  | cons a t ih =>
    have h1 := hf a (by simp)
    simp only [List.cons_append, List.dropWhile_cons, h1, if_true]
    exact ih (fun x hx => hf x (by simp [hx]))

theorem stagedLine_noNl {f : Line} {h : Nat} (hf : '\n' ∉ f) :
    '\n' ∉ stagedLineText f h := by
  intro hm
  simp only [stagedLineText, List.mem_append, List.mem_cons] at hm
  rcases hm with hm | hm | hm
  · exact hf hm
  · exact absurd hm (by decide)
  · exact dec_char_ne '\n' (by decide) hm

theorem stagedLine_chomp {f : Line} {h : Nat} (hf : '\n' ∉ f) (hr : '\r' ∉ f) :
    chomp (stagedLineText f h) = stagedLineText f h := by
  refine chomp_of_clean (stagedLine_noNl hf) ?_
  intro hm
  simp only [stagedLineText, List.mem_append, List.mem_cons] at hm
  rcases hm with hm | hm | hm
  · exact hr hm
  · exact absurd hm (by decide)
  · exact dec_char_ne '\x0d' (by decide) hm

theorem stagedLine_tok1 {f : Line} {h : Nat} (hne : f ≠ []) (hbar : '|' ∉ f) :
    tok1 (stagedLineText f h) = some f := by
  have hall : ∀ a ∈ f, (a != '|') = true := by
    intro a ha
    simp only [bne_iff_ne]
    exact fun he => hbar (he ▸ ha)
  match f, hne with
  | c :: t, _ =>
    have hc : (c == '|') = false := by
      simp only [beq_eq_false_iff_ne]
      exact fun he => hbar (by simp [he])
    unfold tok1 stagedLineText
    rw [List.cons_append, List.dropWhile_cons, hc]
    simp only [Bool.false_eq_true, if_false]
    rw [← List.cons_append, takeWhileAppend hall (by decide)]

theorem stagedLine_tok2 {f : Line} {h : Nat} (hne : f ≠ []) (hbar : '|' ∉ f) :
    tok2 (stagedLineText f h) = some (dec h) := by
  have hall : ∀ a ∈ f, (a != '|') = true := by
    intro a ha
    simp only [bne_iff_ne]
    exact fun he => hbar (he ▸ ha)
  have hdig : ∀ a ∈ dec h, (a == '|') = false := by
    intro a ha
    simp only [beq_eq_false_iff_ne]
    exact fun he => dec_char_ne '|' (by decide) (he ▸ ha)
  have hrest : tokRest (stagedLineText f h) = '|' :: dec h := by
    unfold tokRest stagedLineText
    match f, hne with
    | c :: t, _ =>
      have hc : (c == '|') = false := by
        simp only [beq_eq_false_iff_ne]
        exact fun he => hbar (by simp [he])
      rw [List.cons_append, List.dropWhile_cons, hc]
      simp only [Bool.false_eq_true, if_false]
      rw [← List.cons_append, dropWhileAppend hall (by decide)]
  unfold tok2
  rw [hrest]
  unfold tok1
  rw [List.dropWhile_cons]
  simp only [beq_self_eq_true, if_true]
  rw [dropWhileNone hdig]
  cases hq : dec h with
  | nil => exact absurd hq (dec_ne_nil h)
  | cons c t =>
    show some ((c :: t).takeWhile (fun c => c != '|')) = some (c :: t)
    have hall2 : ∀ a ∈ c :: t, (a != '|') = true := by
      intro a ha
      have ham : a ∈ dec h := by rw [hq]; exact ha
      simp only [bne_iff_ne]
      exact fun he => dec_char_ne '|' (by decide) (he ▸ ham)
    rw [takeWhileAll hall2]

theorem stagedLine_startsHash {f : Line} {h : Nat} (hne : f ≠ [])
    (hh : f.head? ≠ some '#') : startsHash (stagedLineText f h) = false := by
  match f, hne with
  | c :: t, _ =>
    simp only [List.head?] at hh
    have : c ≠ '#' := fun he => hh (by rw [he])
    simp only [stagedLineText, List.cons_append, startsHash, beq_eq_false_iff_ne]
    exact this

theorem parseLine_stagedLine {f : Line} {h : Nat} (hw : wfName f) (hlt : h < 2 ^ 64) :
    parseLine (stagedLineText f h) = some (f, h) := by
  obtain ⟨hne, hbar, hnl, hcr, hhd⟩ := hw
  unfold parseLine
  rw [stagedLine_chomp hnl hcr, stagedLine_startsHash hne hhd]
  have hemp : (stagedLineText f h).isEmpty = false := by
    match f, hne with
    | c :: t, _ => rfl
  simp only [hemp, Bool.or_self, Bool.false_eq_true, if_false]
  rw [stagedLine_tok1 hne hbar, stagedLine_tok2 hne hbar]
  show some (f, strtoul10 (dec h)) = some (f, h)
  rw [strtoul10_dec hlt]

theorem parseLine_tok1 {l : Line} {n : Line} {v : Nat}
    (h : parseLine l = some (n, v)) : tok1 (chomp l) = some n := by
  unfold parseLine at h
  by_cases hc : (startsHash (chomp l) || (chomp l).isEmpty) = true
  · rw [if_pos hc] at h
    exact absurd h (by simp)
  · rw [if_neg hc] at h
    cases h1 : tok1 (chomp l) with
    | none => rw [h1] at h; exact absurd h (by simp)
    | some f0 =>
      rw [h1] at h
      cases h2 : tok2 (chomp l) with
      | none => rw [h2] at h; exact absurd h (by simp)
      | some hs =>
        rw [h2] at h
        simp only [Option.some_inj, Prod.mk.injEq] at h
        rw [h.1]

theorem parseLine_not_skipped {l : Line} {n : Line} {v : Nat}
    (h : parseLine l = some (n, v)) :
    startsHash (chomp l) = false ∧ (chomp l).isEmpty = false := by
  unfold parseLine at h
  by_cases hc : (startsHash (chomp l) || (chomp l).isEmpty) = true
  · rw [if_pos hc] at h
    exact absurd h (by simp)
  · simp only [Bool.or_eq_true, not_or, Bool.not_eq_true] at hc
    exact ⟨hc.1, hc.2⟩

theorem startsHash_chomp {l : Line} (h : (chomp l).isEmpty = false) :
    startsHash l = startsHash (chomp l) := by
  cases l with
  | nil => rfl
  | cons c t =>
    unfold chomp at h ⊢
    rw [List.takeWhile_cons]
    by_cases hc : (c != '\n' && c != '\r') = true
    · rw [if_pos hc]
      rfl
    · rw [List.takeWhile_cons, if_neg hc] at h
      exact absurd h (by simp)

theorem entries_keptLines (ls : List Line) (f : Line) :
    stagingEntries (keptLines ls f) = (stagingEntries ls).filter (fun e => e.1 != f) := by
  unfold stagingEntries keptLines
  induction ls with
  | nil => rfl
  | cons l t ih =>
    cases hp : parseLine l with
    | none =>
      by_cases hk : keepLine f l = true
      · simp only [List.filter_cons, hk, if_true, List.filterMap_cons, hp, ih]
      · have hk2 : keepLine f l = false := by
          cases hq : keepLine f l
          · rfl
          · exact absurd hq hk
        simp only [List.filter_cons, hk2, Bool.false_eq_true, if_false,
          List.filterMap_cons, hp, ih]
    | some e =>
      have ht1 : tok1 (chomp l) = some e.1 := parseLine_tok1 (by rw [hp])
      have hk : keepLine f l = (e.1 != f) := by
        unfold keepLine
        rw [ht1]
      by_cases hne : (e.1 != f) = true
      · simp only [List.filter_cons, hk, hne, if_true, List.filterMap_cons, hp, ih]
      · have hne2 : (e.1 != f) = false := by
          cases hq : (e.1 != f)
          · rfl
          · exact absurd hq hne
        simp only [List.filter_cons, hk, hne2, Bool.false_eq_true, if_false,
          List.filterMap_cons, hp, ih]

theorem not_staged_no_entry {ls : List Line} {f : Line}
    (h : isAlreadyStaged (some ls) f = false) :
    ∀ e ∈ stagingEntries ls, e.1 ≠ f := by
  intro e he hef
  obtain ⟨l, hl, hp⟩ := List.mem_filterMap.1 he
  have ht1 : tok1 (chomp l) = some e.1 := parseLine_tok1 hp
  have hns := parseLine_not_skipped hp
  have hraw : startsHash l = false := (startsHash_chomp hns.2).trans hns.1
  unfold isAlreadyStaged at h
  rw [List.any_eq_false] at h
  have := h l hl
  rw [hraw] at this
  simp only [Bool.false_eq_true, if_false, hns.2, ht1] at this
  rw [hef] at this
  simp at this

theorem stageStep_entries {st : Option (List Line)} {f : Line} {h : Nat}
    (hw : wfName f) (hlt : h < 2 ^ 64) :
    stagingEntriesO (stageEntry st f h)
      = (stagingEntriesO st).filter (fun e => e.1 != f) ++ [(f, h)] := by
  have hsingle : splitNl (stagedLineText f h ++ ['\n']) = [stagedLineText f h] :=
    splitNl_single (stagedLine_noNl hw.2.2.1)
  have hparse : parseLine (stagedLineText f h) = some (f, h) := parseLine_stagedLine hw hlt
  unfold stageEntry appendStaging
  by_cases hs : isAlreadyStaged st f = true
  · rw [if_pos hs]
    match st, hs with
    | some ls, hs =>
      simp only [removeFromStaging, Option.getD_some]
      unfold stagingEntriesO
      simp only [Option.getD_some, hsingle]
      unfold stagingEntries
      rw [List.filterMap_append]
      rw [show List.filterMap parseLine (keptLines ls f)
            = stagingEntries (keptLines ls f) from rfl, entries_keptLines]
      simp only [List.filterMap_cons, hparse, List.filterMap_nil]
      rfl
  · rw [if_neg hs]
    have hs2 : isAlreadyStaged st f = false := by
      cases hq : isAlreadyStaged st f
      · rfl
      · exact absurd hq hs
    unfold stagingEntriesO
    simp only [Option.getD_some, hsingle]
    unfold stagingEntries
    rw [List.filterMap_append]
    simp only [List.filterMap_cons, hparse, List.filterMap_nil]
    have hfilt : (List.filterMap parseLine (st.getD [])).filter (fun e => e.1 != f)
        = List.filterMap parseLine (st.getD []) := by
      rw [List.filter_eq_self]
      intro e he
      simp only [bne_iff_ne]
      match st, hs2 with
      | none, _ => exact absurd he (by simp)
      | some ls, hs2 => exact not_staged_no_entry hs2 e he
    rw [hfilt]

/-! Helper lemmas about the bounded commit snapshot loop. -/

theorem memTakeWhile {p : Char → Bool} {l : Line} {a : Char} (h : a ∈ l.takeWhile p) :
    a ∈ l := by
  induction l with
  | nil => exact absurd h (by simp)
  | cons c t ih =>
    rw [List.takeWhile_cons] at h
    by_cases hc : p c = true
    · rw [if_pos hc] at h
      rcases List.mem_cons.1 h with h | h
      · simp [h]
      · simp [ih h]
    · rw [if_neg hc] at h
      exact absurd h (by simp)

theorem memDropWhile {p : Char → Bool} {l : Line} {a : Char} (h : a ∈ l.dropWhile p) :
    a ∈ l := by
  induction l with
  | nil => exact absurd h (by simp)
  | cons c t ih =>
    rw [List.dropWhile_cons] at h
    by_cases hc : p c = true
    · rw [if_pos hc] at h
      simp [ih h]
    · rw [if_neg hc] at h
      exact h

theorem tok1_mem {s f : Line} (h : tok1 s = some f) : ∀ a ∈ f, a ∈ s := by
  intro a ha
  unfold tok1 at h
  cases hq : s.dropWhile (fun c => c == '|') with
  | nil => rw [hq] at h; exact absurd h (by simp)
  | cons c t =>
    rw [hq] at h
    simp only [Option.some_inj] at h
    have : a ∈ (c :: t).takeWhile (fun c => c != '|') := by rw [h]; exact ha
    have h2 : a ∈ c :: t := memTakeWhile this
    have : a ∈ s.dropWhile (fun c => c == '|') := by rw [hq]; exact h2
    exact memDropWhile this

theorem chomp_mem_clean {l : Line} {a : Char} (h : a ∈ chomp l) :
    a ≠ '\n' ∧ a ≠ '\r' := by
  have := List.mem_takeWhile_imp h
  simp only [Bool.and_eq_true, bne_iff_ne] at this
  exact this

theorem entry_name_clean {l : Line} {n : Line} {v : Nat}
    (h : parseLine l = some (n, v)) : '\n' ∉ n ∧ '\r' ∉ n := by
  have ht1 := parseLine_tok1 h
  constructor
  · intro hm
    exact (chomp_mem_clean (tok1_mem ht1 _ hm)).1 rfl
  · intro hm
    exact (chomp_mem_clean (tok1_mem ht1 _ hm)).2 rfl

theorem readStagedLoop_eq (ls : List Line) (k : Nat) :
    readStagedLoop ls k = (stagingEntries ls).take (10 - k) := by
  induction ls generalizing k with
  | nil => simp [readStagedLoop, stagingEntries]
  | cons l t ih =>
    unfold readStagedLoop stagingEntries
    by_cases hskip : (startsHash (chomp l) || (chomp l).isEmpty) = true
    · have hp : parseLine l = none := by unfold parseLine; rw [if_pos hskip]
      rw [if_pos hskip]
      simp only [List.filterMap_cons, hp]
      exact ih k
    · rw [if_neg hskip]
      have hp0 : parseLine l
          = match tok1 (chomp l), tok2 (chomp l) with
            | some f, some hs => some (f, strtoul10 hs)
            | _, _ => none := by
        unfold parseLine
        rw [if_neg hskip]
      by_cases hk : 10 ≤ k
      · rw [if_pos hk]
        have h0 : 10 - k = 0 := by omega
        rw [h0, List.take_zero]
      · rw [if_neg hk]
        cases t1 : tok1 (chomp l) with
        | none =>
          have hp : parseLine l = none := by rw [hp0, t1]
          simp only [List.filterMap_cons, hp]
          exact ih k
        | some f0 =>
          cases t2 : tok2 (chomp l) with
          | none =>
            have hp : parseLine l = none := by rw [hp0, t1, t2]
            simp only [List.filterMap_cons, hp]
            exact ih k
          | some hs =>
            have hp : parseLine l = some (f0, strtoul10 hs) := by rw [hp0, t1, t2]
            simp only [List.filterMap_cons, hp]
            have hsucc : 10 - k = (10 - (k + 1)) + 1 := by omega
            rw [hsucc, List.take_succ_cons, ih (k + 1)]
            rfl

/-! Helper lemmas about the commit record format and the id scan. -/

theorem tagMatch_append (t r : Line) : tagMatch t (t ++ r) = true := by
  induction t with
  | nil => rfl
  | cons a as ih => simp [tagMatch, ih]

theorem scanCommitId_commitLine (v : Int) :
    scanCommitId (commitTag ++ decInt v) = some v := by
  unfold scanCommitId
  rw [tagMatch_append]
  simp only [if_true]
  have : (commitTag ++ decInt v).drop 7 = decInt v := rfl
  rw [this, scanIntAt_decInt]

theorem scanParentId_parentLine (v : Int) :
    scanParentId (parentTag ++ decInt v) = some v := by
  unfold scanParentId
  rw [tagMatch_append]
  simp only [if_true]
  have : (parentTag ++ decInt v).drop 7 = decInt v := rfl
  rw [this, scanIntAt_decInt]

theorem scanCommitId_msg (r : Line) : scanCommitId (msgTag ++ r) = none := by
  simp [scanCommitId, commitTag, msgTag, tagMatch]

theorem scanCommitId_time (r : Line) : scanCommitId (timeTag ++ r) = none := by
  simp [scanCommitId, commitTag, timeTag, tagMatch]

theorem scanCommitId_branch (r : Line) : scanCommitId (branchTag ++ r) = none := by
  simp [scanCommitId, commitTag, branchTag, tagMatch]

theorem scanCommitId_parent (r : Line) : scanCommitId (parentTag ++ r) = none := by
  simp [scanCommitId, commitTag, parentTag, tagMatch]

theorem scanCommitId_files (r : Line) : scanCommitId (filesTag ++ r) = none := by
  simp [scanCommitId, commitTag, filesTag, tagMatch]

theorem scanCommitId_hashes (r : Line) : scanCommitId (hashesTag ++ r) = none := by
  simp [scanCommitId, commitTag, hashesTag, tagMatch]

theorem scanCommitId_end : scanCommitId endTag = none := by decide

theorem scanParentId_msg (r : Line) : scanParentId (msgTag ++ r) = none := by
  simp [scanParentId, parentTag, msgTag, tagMatch]

theorem scanParentId_time (r : Line) : scanParentId (timeTag ++ r) = none := by
  simp [scanParentId, parentTag, timeTag, tagMatch]

theorem scanParentId_branch (r : Line) : scanParentId (branchTag ++ r) = none := by
  simp [scanParentId, parentTag, branchTag, tagMatch]

theorem scanParentId_files (r : Line) : scanParentId (filesTag ++ r) = none := by
  simp [scanParentId, parentTag, filesTag, tagMatch]

theorem scanParentId_hashes (r : Line) : scanParentId (hashesTag ++ r) = none := by
  simp [scanParentId, parentTag, hashesTag, tagMatch]

theorem scanParentId_end : scanParentId endTag = none := by decide

theorem joinComma_clean {ls : List Line} (h : ∀ l ∈ ls, '\n' ∉ l) :
    '\n' ∉ joinComma ls := by
  induction ls with
  | nil => simp [joinComma]
  | cons x t ih =>
    cases t with
    | nil =>
      simp only [joinComma]
      exact h x (by simp)
    | cons y t2 =>
      simp only [joinComma, List.mem_append, List.mem_cons]
      intro hm
      rcases hm with hm | hm | hm
      · exact h x (by simp) hm
      · exact absurd hm (by decide)
      · exact ih (fun l hl => h l (by simp [List.mem_cons.1 hl])) hm

theorem decInt_noNl (v : Int) : '\n' ∉ decInt v := by
  unfold decInt
  by_cases hv : v < 0
  · rw [if_pos hv]
    simp only [List.mem_cons]
    intro hm
    rcases hm with hm | hm
    · exact absurd hm (by decide)
    · exact dec_char_ne '\n' (by decide) hm
  · rw [if_neg hv]
    exact dec_char_ne '\n' (by decide)

/-- Lines of one record under the newline side conditions: each field line
is a single line. -/
theorem commitRecordLines_clean {id parent : Int} {msg ts bn : Line}
    {es : List (Line × Nat)} (hmsg : '\n' ∉ msg) (hts : '\n' ∉ ts)
    (hbn : '\n' ∉ bn) (hes : ∀ e ∈ es, '\n' ∉ e.1) :
    commitRecordLines id msg ts bn parent es
      = [commitTag ++ decInt id, msgTag ++ msg, timeTag ++ ts, branchTag ++ bn,
         parentTag ++ decInt parent,
         filesTag ++ joinComma (es.map (fun e => e.1)),
         hashesTag ++ joinComma (es.map (fun e => dec e.2)), endTag] := by
  have h1 : '\n' ∉ commitTag ++ decInt id := by
    simp only [List.mem_append]
    intro hm
    rcases hm with hm | hm
    · exact absurd hm (by decide)
    · exact decInt_noNl id hm
  have h2 : '\n' ∉ msgTag ++ msg := by
    simp only [List.mem_append]
    intro hm
    rcases hm with hm | hm
    · exact absurd hm (by decide)
    · exact hmsg hm
  have h3 : '\n' ∉ timeTag ++ ts := by
    simp only [List.mem_append]
    intro hm
    rcases hm with hm | hm
    · exact absurd hm (by decide)
    · exact hts hm
  have h4 : '\n' ∉ branchTag ++ bn := by
    simp only [List.mem_append]
    intro hm
    rcases hm with hm | hm
    · exact absurd hm (by decide)
    · exact hbn hm
  have h5 : '\n' ∉ parentTag ++ decInt parent := by
    simp only [List.mem_append]
    intro hm
    rcases hm with hm | hm
    · exact absurd hm (by decide)
    · exact decInt_noNl parent hm
  have h6 : '\n' ∉ filesTag ++ joinComma (es.map (fun e => e.1)) := by
    simp only [List.mem_append]
    intro hm
    rcases hm with hm | hm
    · exact absurd hm (by decide)
    · exact joinComma_clean (by
        intro l hl
        obtain ⟨e, he, hel⟩ := List.mem_map.1 hl
        exact hel ▸ hes e he) hm
  have h7 : '\n' ∉ hashesTag ++ joinComma (es.map (fun e => dec e.2)) := by
    simp only [List.mem_append]
    intro hm
    rcases hm with hm | hm
    · exact absurd hm (by decide)
    · exact joinComma_clean (by
        intro l hl
        obtain ⟨e, he, hel⟩ := List.mem_map.1 hl
        exact hel ▸ dec_char_ne '\n' (by decide)) hm
  unfold commitRecordLines
  rw [splitNl_single h1, splitNl_single h2, splitNl_single h3, splitNl_single h4,
    splitNl_single h5, splitNl_single h6, splitNl_single h7]
  rfl

theorem filterMap_scan_record {id parent : Int} {msg ts bn : Line}
    {es : List (Line × Nat)} (hmsg : '\n' ∉ msg) (hts : '\n' ∉ ts)
    (hbn : '\n' ∉ bn) (hes : ∀ e ∈ es, '\n' ∉ e.1) :
    (commitRecordLines id msg ts bn parent es).filterMap scanCommitId = [id] := by
  rw [commitRecordLines_clean hmsg hts hbn hes]
  simp only [List.filterMap_cons, scanCommitId_commitLine, scanCommitId_msg,
    scanCommitId_time, scanCommitId_branch, scanCommitId_parent,
    scanCommitId_files, scanCommitId_hashes, scanCommitId_end, List.filterMap_nil]

theorem cppWalk_append (l1 l2 : List Line) (cur : Option Int) :
    cppWalk (l1 ++ l2) cur
      = ((cppWalk l1 cur).1 ++ (cppWalk l2 (cppWalk l1 cur).2).1,
         (cppWalk l2 (cppWalk l1 cur).2).2) := by
  induction l1 generalizing cur with
  | nil => simp [cppWalk]
  | cons l t ih =>
    cases hc : scanCommitId l with
    | some v =>
      simp only [List.cons_append, cppWalk, hc, List.append_eq, ih]
    | none =>
      cases hp : scanParentId l with
      | some w =>
        cases cur with
        | some v =>
          simp only [List.cons_append, cppWalk, hc, hp, List.append_eq, ih, List.cons_append]
        | none => simp only [List.cons_append, cppWalk, hc, hp, List.append_eq, ih]
      | none =>
        simp only [List.cons_append, cppWalk, hc, hp, List.append_eq, ih]

theorem cppWalk_record {id parent : Int} {msg ts bn : Line}
    {es : List (Line × Nat)} (hmsg : '\n' ∉ msg) (hts : '\n' ∉ ts)
    (hbn : '\n' ∉ bn) (hes : ∀ e ∈ es, '\n' ∉ e.1) :
    cppWalk (commitRecordLines id msg ts bn parent es) none = ([(id, parent)], none) := by
  rw [commitRecordLines_clean hmsg hts hbn hes]
  simp only [cppWalk, scanCommitId_commitLine, scanCommitId_msg, scanCommitId_time,
    scanCommitId_branch, scanCommitId_parent, scanCommitId_files, scanCommitId_hashes,
    scanCommitId_end, scanParentId_msg, scanParentId_time, scanParentId_branch,
    scanParentId_parentLine, scanParentId_files, scanParentId_hashes, scanParentId_end]

/-! Invariant of a fresh-branch commit history. -/

theorem getLast?_mem_own {l : Line} {c : Char} (h : l.getLast? = some c) : c ∈ l := by
  induction l with
  | nil => exact absurd h (by simp)
  | cons a t ih =>
    cases t with
    | nil =>
      simp only [List.getLast?_singleton, Option.some_inj] at h
      simp [h]
    | cons b t2 =>
      rw [List.getLast?_cons_cons] at h
      simp [ih h]

theorem stripTrailNl_of_clean {l : Line} (h : '\n' ∉ l) : stripTrailNl l = l := by
  unfold stripTrailNl
  cases hq : l.getLast? with
  | none => rfl
  | some c =>
    have hm : c ∈ l := getLast?_mem_own hq
    have hc : c ≠ '\n' := fun he => h (he ▸ hm)
    show (if c = '\n' then l.dropLast else l) = l
    rw [if_neg hc]

theorem currentBranch_of_wf {bn : Line} (hbn : wfBranch bn) :
    currentBranch (some bn) = bn := by
  show stripTrailNl (bn.take 49) = bn
  rw [List.take_of_length_le hbn.2, stripTrailNl_of_clean hbn.1]

theorem nextCommitId_filterMap (ls : List Line) :
    nextCommitId (some ls)
      = (ls.filterMap scanCommitId).foldl (fun mx v => if v > mx then v else mx) 0 + 1 := by
  show (ls.foldl (fun mx l =>
      match scanCommitId l with
      | some v => if v > mx then v else mx
      | none => mx) 0) + 1
    = (ls.filterMap scanCommitId).foldl (fun mx v => if v > mx then v else mx) 0 + 1
  have key : ∀ (l : List Line) (acc : Int),
      l.foldl (fun mx l =>
        match scanCommitId l with
        | some v => if v > mx then v else mx
        | none => mx) acc
      = (l.filterMap scanCommitId).foldl (fun mx v => if v > mx then v else mx) acc := by
    intro l
    induction l with
    | nil => intro acc; rfl
    | cons a t ih =>
      intro acc
      cases hs : scanCommitId a with
      | none => simp only [List.foldl_cons, List.filterMap_cons, hs, ih]
      | some v => simp only [List.foldl_cons, List.filterMap_cons, hs, ih]
  rw [key]

theorem maxFold_idList (n : Nat) :
    (idList n).foldl (fun mx v => if v > mx then v else mx) 0 = (n : Int) := by
  induction n with
  | zero => rfl
  | succ n ih =>
    unfold idList
    rw [List.foldl_append, ih]
    have : ((n : Int) + 1) > (n : Int) := by omega
    simp only [List.foldl_cons, List.foldl_nil, this, if_true]
    push_cast
    ring

theorem idList_ne_nil (n : Nat) (h : 0 < n) : idList n ≠ [] := by
  cases n with
  | zero => omega
  | succ n => unfold idList; simp

theorem nextCommitId_of_ids {c : Option (List Line)} {n : Nat}
    (h : commitIdsOf c = idList n) : nextCommitId c = (n : Int) + 1 := by
  cases c with
  | none =>
    have : idList n = [] := by
      unfold commitIdsOf at h
      simpa using h.symm
    have hn : n = 0 := by
      by_contra hne
      exact idList_ne_nil n (by omega) this
    subst hn
    rfl
  | some ls =>
    rw [nextCommitId_filterMap]
    unfold commitIdsOf at h
    simp only [Option.getD_some] at h
    rw [h, maxFold_idList]

/-- Invariant after n successful commits on the fresh branch bn: HEAD still
names bn, the log carries exactly the COMMIT: ids 1..n in order, the record
walk pairs commit k with parent k - 1 (sentinel -1 for the first), and the
branch reference holds the decimal text of n (0 as created by init). -/
def chainInv (bn : Line) (s : Repo) (n : Nat) : Prop :=
  s.headF = some bn ∧
  commitIdsOf s.commits = idList n ∧
  cppWalk (s.commits.getD []) none = (pairList n, none) ∧
  s.refs bn = some (if n = 0 then ['0'] else dec n)

theorem chainInv_fresh (bn : Line) : chainInv bn (freshBranchRepo bn) 0 := by
  refine ⟨rfl, ?_, ?_, ?_⟩
  · show List.filterMap scanCommitId [commitsHeader] = []
    have : scanCommitId commitsHeader = none := by decide
    simp [this]
  · show cppWalk [commitsHeader] none = ([], none)
    have h1 : scanCommitId commitsHeader = none := by decide
    have h2 : scanParentId commitsHeader = none := by decide
    simp [cppWalk, h1, h2]
  · show (if bn = bn then some ['0'] else none) = some (if 0 = 0 then ['0'] else dec 0)
    simp

theorem chainInv_add {bn : Line} {s : Repo} {n : Nat} (f : Line) (c : List Nat)
    (h : chainInv bn s n) : chainInv bn (mygitAdd s f c).1 n := by
  obtain ⟨h1, h2, h3, h4⟩ := h
  exact ⟨h1, h2, h3, h4⟩

theorem mygitCommit_empty {s : Repo} (m ts : Line)
    (hc : countStagedFiles s.staging = 0) : mygitCommit s m ts = (s, -1) := by
  unfold mygitCommit
  rw [if_pos hc]

theorem staging_some_of_count {s : Repo} (hc : countStagedFiles s.staging ≠ 0) :
    ∃ ls, s.staging = some ls := by
  cases hq : s.staging with
  | none =>
    rw [hq] at hc
    exact absurd rfl hc
  | some ls => exact ⟨ls, rfl⟩

theorem mygitCommit_state {s : Repo} {ls : List Line} (m ts : Line)
    (hls : s.staging = some ls) (hc : countStagedFiles s.staging ≠ 0) :
    (mygitCommit s m ts).1
      = { s with
          commits := some (s.commits.getD []
            ++ commitRecordLines (nextCommitId s.commits) (m.take 255) ts
                (currentBranch s.headF)
                (if lastCommitIdOnBranch s.refs (currentBranch s.headF) = 0 then -1
                 else lastCommitIdOnBranch s.refs (currentBranch s.headF))
                (readStagedLoop ls 0))
          refs := fun b => if b = currentBranch s.headF
                           then some (decInt (nextCommitId s.commits)) else s.refs b
          staging := some [stagingHeader] } := by
  unfold mygitCommit
  rw [if_neg hc, hls]
  rfl

theorem readStaged_names_clean {ls : List Line} :
    ∀ e ∈ readStagedLoop ls 0, '\n' ∉ e.1 := by
  intro e he
  rw [readStagedLoop_eq] at he
  have he2 : e ∈ stagingEntries ls := List.take_subset _ _ he
  obtain ⟨l, hl, hp⟩ := List.mem_filterMap.1 he2
  have hp2 : parseLine l = some (e.1, e.2) := by rw [hp]
  exact (entry_name_clean hp2).1

theorem chainInv_commit {bn : Line} {s : Repo} {n : Nat} {m ts : Line}
    (hbn : wfBranch bn) (h : chainInv bn s n) (hm : '\n' ∉ m) (hts : '\n' ∉ ts) :
    chainInv bn (mygitCommit s m ts).1
      (n + if countStagedFiles s.staging = 0 then 0 else 1) := by
  obtain ⟨h1, h2, h3, h4⟩ := h
  by_cases hc : countStagedFiles s.staging = 0
  · rw [if_pos hc, Nat.add_zero]
    have hst : (mygitCommit s m ts).1 = s := by rw [mygitCommit_empty m ts hc]
    rw [hst]
    exact ⟨h1, h2, h3, h4⟩
  · rw [if_neg hc]
    obtain ⟨ls, hls⟩ := staging_some_of_count hc
    rw [mygitCommit_state m ts hls hc]
    have hbr : currentBranch s.headF = bn := by rw [h1, currentBranch_of_wf hbn]
    have hid : nextCommitId s.commits = (n : Int) + 1 := nextCommitId_of_ids h2
    have hlast : lastCommitIdOnBranch s.refs (currentBranch s.headF)
        = (if n = 0 then 0 else (n : Int)) := by
      rw [hbr]
      unfold lastCommitIdOnBranch
      rw [h4]
      by_cases hn : n = 0
      · rw [if_pos hn, if_pos hn]
        rfl
      · rw [if_neg hn, if_neg hn]
        show atoiI (dec n) = (n : Int)
        rw [atoiI_dec]
    have hpar : (if lastCommitIdOnBranch s.refs (currentBranch s.headF) = 0 then (-1 : Int)
                 else lastCommitIdOnBranch s.refs (currentBranch s.headF))
        = (if n = 0 then (-1 : Int) else (n : Int)) := by
      rw [hlast]
      by_cases hn : n = 0
      · rw [if_pos hn, if_pos hn, if_pos rfl]
      · rw [if_neg hn, if_neg hn, if_neg (by exact_mod_cast hn)]
    have hmsg : '\n' ∉ m.take 255 := fun hmem => hm (List.take_subset _ _ hmem)
    have hes : ∀ e ∈ readStagedLoop ls 0, '\n' ∉ e.1 := readStaged_names_clean
    refine ⟨h1, ?_, ?_, ?_⟩
    · show List.filterMap scanCommitId (s.commits.getD [] ++ commitRecordLines _ _ _ _ _ _)
        = idList (n + 1)
      rw [List.filterMap_append, hpar, hid, hbr,
        filterMap_scan_record hmsg hts hbn.1 hes]
      show commitIdsOf s.commits ++ [(n : Int) + 1] = idList (n + 1)
      rw [h2]
      rfl
    · show cppWalk (s.commits.getD [] ++ commitRecordLines _ _ _ _ _ _) none
        = (pairList (n + 1), none)
      rw [cppWalk_append, h3, hpar, hid, hbr,
        cppWalk_record hmsg hts hbn.1 hes]
      show (pairList n ++ [((n : Int) + 1, if n = 0 then (-1 : Int) else (n : Int))], none)
        = (pairList (n + 1), none)
      rfl
    · show (if bn = currentBranch s.headF
            then some (decInt (nextCommitId s.commits))
            else s.refs bn)
        = some (if n + 1 = 0 then ['0'] else dec (n + 1))
      rw [hbr, if_pos rfl, hid, if_neg (Nat.succ_ne_zero n)]
      have hpos : ¬ ((n : Int) + 1 < 0) := by omega
      unfold decInt
      rw [if_neg hpos]
      have : ((n : Int) + 1).toNat = n + 1 := by omega
      rw [this]

theorem chainInv_run {bn : Line} {s : Repo} {n : Nat} {ops : List Op}
    (hbn : wfBranch bn) (h : chainInv bn s n) (hops : wfOps ops) :
    chainInv bn (runOps s ops) (n + countSucc s ops) := by
  induction ops generalizing s n with
  | nil =>
    simpa [runOps, countSucc] using h
  | cons op rest ih =>
    have hrun : runOps s (op :: rest) = runOps (applyOp s op) rest := rfl
    rw [hrun]
    cases op with
    | addF f c =>
      have hstep : chainInv bn (applyOp s (Op.addF f c)) n := chainInv_add f c h
      have := ih hstep hops.2
      show chainInv bn (runOps (applyOp s (Op.addF f c)) rest)
        (n + countSucc s (Op.addF f c :: rest))
      have hcnt : countSucc s (Op.addF f c :: rest)
          = countSucc (applyOp s (Op.addF f c)) rest := by
        show 0 + countSucc (applyOp s (Op.addF f c)) rest = _
        rw [Nat.zero_add]
      rw [hcnt]
      exact this
    | commitF m ts =>
      have hstep : chainInv bn (applyOp s (Op.commitF m ts))
          (n + if countStagedFiles s.staging = 0 then 0 else 1) :=
        chainInv_commit hbn h hops.1.1 hops.1.2
      have := ih hstep hops.2
      show chainInv bn (runOps (applyOp s (Op.commitF m ts)) rest)
        (n + countSucc s (Op.commitF m ts :: rest))
      have hcnt : n + countSucc s (Op.commitF m ts :: rest)
          = (n + if countStagedFiles s.staging = 0 then 0 else 1)
            + countSucc (applyOp s (Op.commitF m ts)) rest := by
        show n + ((if countStagedFiles s.staging = 0 then 0 else 1)
            + countSucc (applyOp s (Op.commitF m ts)) rest) = _
        omega
      rw [hcnt]
      exact this

/-! Helper lemmas about the object store and the hash bound. -/

theorem hashStep_lt (h b : Nat) : hashStep h b < 2 ^ 64 := by
  unfold hashStep
  have h1 : ((h * 33 : Int) + signedByte b) % (2 ^ 64 : Int) < (2 ^ 64 : Int) :=
    Int.emod_lt_of_pos _ (by norm_num)
  omega

theorem hash_lt (c : List Nat) : hash_content c < 2 ^ 64 := by
  unfold hash_content
  have key : ∀ (l : List Nat) (acc : Nat), acc < 2 ^ 64 → l.foldl hashStep acc < 2 ^ 64 := by
    intro l
    induction l with
    | nil => intro acc hacc; exact hacc
    | cons b t ih =>
      intro acc hacc
      exact ih (hashStep acc b) (hashStep_lt acc b)
  exact key _ 5381 (by norm_num)

theorem cstr_of_no_nul {c : List Nat} (h : ∀ b ∈ c, b ≠ 0) : cstr c = c := by
  refine takeWhileAll (fun a ha => ?_)
  simpa using h a ha

theorem save_blob_mono {ob : ObjStore} {content : List Nat} {h k : Nat} {v : List Nat}
    (hv : ob k = some v) : (save_blob ob content h).1 k = some v := by
  unfold save_blob
  by_cases hs : (ob h).isSome
  · rw [if_pos hs]
    exact hv
  · rw [if_neg hs]
    by_cases hk : k = h
    · subst hk
      rw [hv] at hs
      exact absurd rfl hs
    · show (if k = h then some (cstr content) else ob k) = some v
      rw [if_neg hk]
      exact hv

theorem save_blob_isSome {ob : ObjStore} (content : List Nat) (h : Nat) :
    ((save_blob ob content h).1 h).isSome = true := by
  unfold save_blob
  by_cases hs : (ob h).isSome
  · rw [if_pos hs]
    exact hs
  · rw [if_neg hs]
    show (if h = h then some (cstr content) else ob h).isSome = true
    rw [if_pos rfl]
    rfl

theorem save_blob_noop {ob : ObjStore} {content : List Nat} {h : Nat}
    (hs : (ob h).isSome = true) : save_blob ob content h = (ob, false) := by
  unfold save_blob
  rw [if_pos hs]

theorem mygitCommit_objects (s : Repo) (m ts : Line) :
    (mygitCommit s m ts).1.objects = s.objects := by
  by_cases hc : countStagedFiles s.staging = 0
  · rw [mygitCommit_empty m ts hc]
  · obtain ⟨ls, hls⟩ := staging_some_of_count hc
    rw [mygitCommit_state m ts hls hc]

theorem applyOp_objects_mono {s : Repo} {h : Nat} {v : List Nat} (op : Op)
    (hv : s.objects h = some v) : (applyOp s op).objects h = some v := by
  cases op with
  | addF f c =>
    show (save_blob s.objects (c.take 9999) (hash_content (c.take 9999))).1 h = some v
    exact save_blob_mono hv
  | commitF m ts =>
    show (mygitCommit s m ts).1.objects h = some v
    rw [mygitCommit_objects]
    exact hv

theorem runOps_objects_mono {s : Repo} {h : Nat} {v : List Nat} (ops : List Op)
    (hv : s.objects h = some v) : (runOps s ops).objects h = some v := by
  induction ops generalizing s with
  | nil => exact hv
  | cons op rest ih =>
    show (runOps (applyOp s op) rest).objects h = some v
    exact ih (applyOp_objects_mono op hv)

theorem filter_ne_then_eq {l : List (Line × Nat)} {f : Line} :
    (l.filter (fun e => e.1 != f)).filter (fun e => e.1 == f) = [] := by
  induction l with
  | nil => rfl
  | cons e t ih =>
    by_cases hb : (e.1 != f) = true
    · have hne : (e.1 == f) = false := by
        simp only [bne_iff_ne, ne_eq] at hb
        simp only [beq_eq_false_iff_ne, ne_eq]
        exact hb
      rw [List.filter_cons, if_pos hb, List.filter_cons, if_neg (by simp [hne])]
      exact ih
    · rw [List.filter_cons, if_neg hb]
      exact ih

/-! Claim theorems. -/

/-- Claim C2 (confirmed): when the staging area holds zero entries, the
commit operation fails with the EmptyCommit outcome (result -1, an ordinary
negative result) and the whole repository state, in particular the commit
chain, the branch reference store and the staging area, is exactly what it
was before the call. -/
theorem c2_empty_commit_unchanged (s : Repo) (m ts : Line)
    (hc : countStagedFiles s.staging = 0) : mygitCommit s m ts = (s, -1) :=
  mygitCommit_empty m ts hc

theorem c2_witness :
    countStagedFiles (freshBranchRepo ['m']).staging = 0
    ∧ mygitCommit (freshBranchRepo ['m']) ['x'] ['t'] = (freshBranchRepo ['m'], -1) :=
  ⟨by decide, c2_empty_commit_unchanged (freshBranchRepo ['m']) ['x'] ['t'] (by decide)⟩

/-- Claim C8 (confirmed): against a repository whose staging file was never
created, every staging read behaves as an empty set (count 0, no entries,
nothing already staged), staging a file succeeds (result 0 and the staging
file comes into existence), and committing reports the EmptyCommit outcome
with the state unchanged rather than failing unrecoverably. -/
theorem c8_absent_staging_is_empty (s : Repo) (f : Line) (c : List Nat) (m ts : Line)
    (hst : s.staging = none) :
    countStagedFiles s.staging = 0
    ∧ stagingEntriesO s.staging = []
    ∧ isAlreadyStaged s.staging f = false
    ∧ (mygitAdd s f c).2 = 0
    ∧ ((mygitAdd s f c).1).staging.isSome = true
    ∧ mygitCommit s m ts = (s, -1) := by
  refine ⟨by rw [hst]; rfl, by rw [hst]; rfl, by rw [hst]; rfl, rfl, rfl,
    mygitCommit_empty m ts (by rw [hst]; rfl)⟩

theorem c8_witness :
    ({ freshBranchRepo ['m'] with staging := none } : Repo).staging = none
    ∧ countStagedFiles ({ freshBranchRepo ['m'] with staging := none } : Repo).staging = 0
    ∧ stagingEntriesO ({ freshBranchRepo ['m'] with staging := none } : Repo).staging = []
    ∧ isAlreadyStaged ({ freshBranchRepo ['m'] with staging := none } : Repo).staging ['a'] = false
    ∧ (mygitAdd { freshBranchRepo ['m'] with staging := none } ['a'] [104]).2 = 0
    ∧ ((mygitAdd { freshBranchRepo ['m'] with staging := none } ['a'] [104]).1).staging.isSome = true
    ∧ mygitCommit { freshBranchRepo ['m'] with staging := none } ['x'] ['t']
        = ({ freshBranchRepo ['m'] with staging := none }, -1) := by
  refine ⟨rfl, ?_⟩
  exact c8_absent_staging_is_empty _ ['a'] [104] ['x'] ['t'] rfl

/-- Claim C4 (corrected, amended): the entries captured into a commit
record by read_staged_files are not the full staged snapshot but exactly
its first 10 parse-eligible entries, in staging-file order; entries beyond
the tenth are silently dropped by the fixed-capacity Commit struct. -/
theorem c4_amended_snapshot_first_ten (st : Option (List Line)) :
    readStagedFiles st = st.map (fun ls => (stagingEntries ls).take 10) := by
  cases st with
  | none => rfl
  | some ls =>
    show some (readStagedLoop ls 0) = some ((stagingEntries ls).take 10)
    rw [readStagedLoop_eq]

theorem c4_counterexample :
    countStagedFiles (some (stagingHeader
      :: (List.range 11).map (fun i => 'f' :: (dec i ++ ['|', '1'])))) = 11
    ∧ (stagingEntries (stagingHeader
      :: (List.range 11).map (fun i => 'f' :: (dec i ++ ['|', '1'])))).length = 11
    ∧ (readStagedFiles (some (stagingHeader
      :: (List.range 11).map (fun i => 'f' :: (dec i ++ ['|', '1']))))).map List.length
      = some 10 := by
  decide

/-- Claim C10 (corrected, amended): provided at most 100 lines of the
staging file survive the filename filter, every store of
remove_from_staging into its 100-row line buffer is in bounds, and the
rewrite keeps exactly the non-matching lines, so exactly the entries of
the given filename are removed and all other entries survive in order. -/
theorem c10_amended_remove_within_capacity (ls : List Line) (f : Line)
    (h : (keptLines ls f).length ≤ 100) :
    storesInBounds ls f
    ∧ removeFromStaging (some ls) f = some (keptLines ls f)
    ∧ stagingEntries (keptLines ls f) = (stagingEntries ls).filter (fun e => e.1 != f) :=
  ⟨h, rfl, entries_keptLines ls f⟩

theorem c10_counterexample :
    ¬ storesInBounds ((List.range 101).map (fun i => 'f' :: (dec i ++ ['|', '1']))) ['z'] := by
  unfold storesInBounds
  decide

theorem c10_witness :
    (keptLines [stagingHeader, stagedLineText ['a'] 1, stagedLineText ['b'] 2] ['a']).length ≤ 100
    ∧ (storesInBounds [stagingHeader, stagedLineText ['a'] 1, stagedLineText ['b'] 2] ['a']
      ∧ removeFromStaging (some [stagingHeader, stagedLineText ['a'] 1, stagedLineText ['b'] 2]) ['a']
          = some (keptLines [stagingHeader, stagedLineText ['a'] 1, stagedLineText ['b'] 2] ['a'])
      ∧ stagingEntries (keptLines [stagingHeader, stagedLineText ['a'] 1, stagedLineText ['b'] 2] ['a'])
          = (stagingEntries [stagingHeader, stagedLineText ['a'] 1, stagedLineText ['b'] 2]).filter
              (fun e => e.1 != ['a'])) :=
  ⟨by decide,
    c10_amended_remove_within_capacity
      [stagingHeader, stagedLineText ['a'] 1, stagedLineText ['b'] 2] ['a'] (by decide)⟩

/-- Claim C7 (corrected, amended): staging a (well-formed) filename leaves
the other entries in their relative order and places the entry for that
filename at the end of the set; hence re-staging an already staged filename
moves its entry to the last position instead of keeping its old position,
while uniqueness of the filename key is maintained. -/
theorem c7_amended_restage_moves_to_end (st : Option (List Line)) (f : Line) (h : Nat)
    (hw : wfName f) (hlt : h < 2 ^ 64) :
    stagingEntriesO (stageEntry st f h)
      = (stagingEntriesO st).filter (fun e => e.1 != f) ++ [(f, h)] :=
  stageStep_entries hw hlt

theorem c7_counterexample :
    stagingEntriesO (stageEntry (stageEntry (stageEntry
        (some [stagingHeader]) ['a'] 1) ['b'] 2) ['a'] 3)
      = [(['b'], 2), (['a'], 3)]
    ∧ (stagingEntriesO (stageEntry (stageEntry (stageEntry
        (some [stagingHeader]) ['a'] 1) ['b'] 2) ['a'] 3)).map (fun e => e.1)
      ≠ [['a'], ['b']] := by
  decide

theorem c7_witness :
    wfName ['a']
    ∧ (3 : Nat) < 2 ^ 64
    ∧ stagingEntriesO (stageEntry (some [stagingHeader, stagedLineText ['a'] 1,
        stagedLineText ['b'] 2]) ['a'] 3)
      = (stagingEntriesO (some [stagingHeader, stagedLineText ['a'] 1,
          stagedLineText ['b'] 2])).filter (fun e => e.1 != ['a']) ++ [(['a'], 3)] :=
  ⟨by decide, by decide,
    c7_amended_restage_moves_to_end
      (some [stagingHeader, stagedLineText ['a'] 1, stagedLineText ['b'] 2]) ['a'] 3
      (by decide) (by decide)⟩

/-- Claim C3 (corrected, amended): for a filename that the staging line
format can represent (non-empty, no bar, no newline or carriage return,
not starting with the comment mark) and fingerprints in unsigned long
range, staging the file twice leaves exactly one entry for that filename,
carrying the second fingerprint (last-write-wins upsert). -/
theorem c3_amended_last_write_wins (st : Option (List Line)) (f : Line) (h1 h2 : Nat)
    (hw : wfName f) (hl1 : h1 < 2 ^ 64) (hl2 : h2 < 2 ^ 64) :
    (stagingEntriesO (stageEntry (stageEntry st f h1) f h2)).filter (fun e => e.1 == f)
      = [(f, h2)] := by
  rw [stageStep_entries hw hl2, stageStep_entries hw hl1, List.filter_append,
    filter_ne_then_eq]
  simp [List.filter_cons]

theorem c3_counterexample :
    stagingEntriesO (stageEntry (stageEntry (some [stagingHeader])
        ['a', '|', 'b'] 1) ['a', '|', 'b'] 2)
      = [(['a'], 0), (['a'], 0)]
    ∧ (stagingEntriesO (stageEntry (stageEntry (some [stagingHeader])
        ['a', '|', 'b'] 1) ['a', '|', 'b'] 2)).filter (fun e => e.1 == ['a', '|', 'b'])
      = [] := by
  decide

theorem c3_witness :
    wfName ['a']
    ∧ (1 : Nat) < 2 ^ 64
    ∧ (2 : Nat) < 2 ^ 64
    ∧ (stagingEntriesO (stageEntry (stageEntry (some [stagingHeader]) ['a'] 1) ['a'] 2)).filter
        (fun e => e.1 == ['a'])
      = [(['a'], 2)] :=
  ⟨by decide, by decide, by decide,
    c3_amended_last_write_wins (some [stagingHeader]) ['a'] 1 2
      (by decide) (by decide) (by decide)⟩

/-- Claim C5 (confirmed): for content with a fresh fingerprint (and no NUL
byte, the domain of a C string argument), the first put performs the one
durable write, persisting the content under its fingerprint, and a second
put of the same content performs no write and leaves the store, in
particular the existing blob, unmodified. -/
theorem c5_put_twice_one_write (ob : ObjStore) (c : List Nat)
    (hfresh : ob (hash_content c) = none) (hnz : ∀ b ∈ c, b ≠ 0) :
    (putBlob ob c).2 = true
    ∧ (putBlob ob c).1 (hash_content c) = some c
    ∧ putBlob (putBlob ob c).1 c = ((putBlob ob c).1, false) := by
  have hcs : cstr c = c := cstr_of_no_nul hnz
  have hns : ¬ ((ob (hash_content c)).isSome = true) := by
    rw [hfresh]
    exact fun hh => nomatch hh
  have h1 : putBlob ob c
      = (fun k => if k = hash_content c then some (cstr c) else ob k, true) := by
    unfold putBlob save_blob
    rw [if_neg hns]
  refine ⟨by rw [h1], ?_, ?_⟩
  · rw [h1]
    show (if hash_content c = hash_content c then some (cstr c) else ob (hash_content c))
      = some c
    rw [if_pos rfl, hcs]
  · have hsome : ((putBlob ob c).1 (hash_content c)).isSome = true := by
      rw [h1]
      show (if hash_content c = hash_content c then some (cstr c) else ob (hash_content c)).isSome
        = true
      rw [if_pos rfl]
      rfl
    unfold putBlob
    exact save_blob_noop hsome

theorem c5_witness :
    ((fun _ => none : ObjStore) (hash_content [72, 105]) = none)
    ∧ (∀ b ∈ ([72, 105] : List Nat), b ≠ 0)
    ∧ ((putBlob (fun _ => none) [72, 105]).2 = true
      ∧ (putBlob (fun _ => none) [72, 105]).1 (hash_content [72, 105]) = some [72, 105]
      ∧ putBlob (putBlob (fun _ => none) [72, 105]).1 [72, 105]
          = ((putBlob (fun _ => none) [72, 105]).1, false)) :=
  ⟨rfl, by decide,
    c5_put_twice_one_write (fun _ => none) [72, 105] rfl (by decide)⟩

theorem save_blob_fresh {ob : ObjStore} {h : Nat} (content : List Nat)
    (hf : ob h = none) : (save_blob ob content h).1 h = some (cstr content) := by
  have hns : ¬ ((ob h).isSome = true) := by
    rw [hf]
    exact fun hh => nomatch hh
  unfold save_blob
  rw [if_neg hns]
  show (if h = h then some (cstr content) else ob h) = some (cstr content)
  rw [if_pos rfl]

/-- Claim C9 (confirmed): the content that stage fingerprints and stores is
exactly the first min(size, 9999) bytes of the file truncated at the first
NUL byte; two distinct files agreeing on that effective prefix receive the
same fingerprint, the second stage adds no blob beyond the first (one
shared blob), and their staged entries agree except for the filename. -/
theorem c9_effective_content (s : Repo) (f1 f2 : Line) (c1 c2 : List Nat)
    (heq : cstr (c1.take 9999) = cstr (c2.take 9999)) :
    hash_content (c1.take 9999) = hash_content (c2.take 9999)
    ∧ (mygitAdd (mygitAdd s f1 c1).1 f2 c2).1.objects = (mygitAdd s f1 c1).1.objects
    ∧ (s.objects (hash_content (c1.take 9999)) = none →
        (mygitAdd s f1 c1).1.objects (hash_content (c1.take 9999))
          = some (cstr (c1.take 9999)))
    ∧ (wfName f1 → wfName f2 → f1 ≠ f2 →
        stagingEntriesO (mygitAdd (mygitAdd s f1 c1).1 f2 c2).1.staging
          = ((stagingEntriesO s.staging).filter (fun e => e.1 != f1)).filter
              (fun e => e.1 != f2)
            ++ [(f1, hash_content (c1.take 9999)), (f2, hash_content (c1.take 9999))]) := by
  have hh : hash_content (c1.take 9999) = hash_content (c2.take 9999) := by
    unfold hash_content
    rw [heq]
  refine ⟨hh, ?_, ?_, ?_⟩
  · show (save_blob (mygitAdd s f1 c1).1.objects (c2.take 9999)
        (hash_content (c2.take 9999))).1 = (mygitAdd s f1 c1).1.objects
    rw [← hh]
    have hsome : ((mygitAdd s f1 c1).1.objects (hash_content (c1.take 9999))).isSome
        = true := by
      show ((save_blob s.objects (c1.take 9999) (hash_content (c1.take 9999))).1
        (hash_content (c1.take 9999))).isSome = true
      exact save_blob_isSome _ _
    rw [save_blob_noop hsome]
  · intro hf
    show (save_blob s.objects (c1.take 9999) (hash_content (c1.take 9999))).1
        (hash_content (c1.take 9999)) = some (cstr (c1.take 9999))
    exact save_blob_fresh _ hf
  · intro hw1 hw2 hne
    have hlt : hash_content (c1.take 9999) < 2 ^ 64 := hash_lt _
    have hst2 : (mygitAdd (mygitAdd s f1 c1).1 f2 c2).1.staging
        = stageEntry ((mygitAdd s f1 c1).1.staging) f2 (hash_content (c1.take 9999)) := by
      rw [hh]
      rfl
    have hst1 : (mygitAdd s f1 c1).1.staging
        = stageEntry s.staging f1 (hash_content (c1.take 9999)) := rfl
    rw [hst2, stageStep_entries hw2 hlt, hst1, stageStep_entries hw1 hlt,
      List.filter_append]
    have hkeep : (List.filter (fun e => e.1 != f2)
        [(f1, hash_content (c1.take 9999))]) = [(f1, hash_content (c1.take 9999))] := by
      rw [List.filter_cons]
      have : (f1 != f2) = true := by
        simp only [bne_iff_ne, ne_eq]
        exact hne
      rw [if_pos (by rw [this])]
      rfl
    rw [hkeep, List.append_assoc]
    rfl

theorem c9_witness :
    cstr (([65, 0, 66] : List Nat).take 9999) = cstr (([65, 0, 67] : List Nat).take 9999)
    ∧ hash_content (([65, 0, 66] : List Nat).take 9999)
        = hash_content (([65, 0, 67] : List Nat).take 9999)
    ∧ (mygitAdd (mygitAdd (freshBranchRepo ['m']) ['a'] [65, 0, 66]).1
        ['b'] [65, 0, 67]).1.objects
      = (mygitAdd (freshBranchRepo ['m']) ['a'] [65, 0, 66]).1.objects
    ∧ (mygitAdd (freshBranchRepo ['m']) ['a'] [65, 0, 66]).1.objects
          (hash_content (([65, 0, 66] : List Nat).take 9999))
        = some (cstr (([65, 0, 66] : List Nat).take 9999))
    ∧ stagingEntriesO (mygitAdd (mygitAdd (freshBranchRepo ['m']) ['a'] [65, 0, 66]).1
          ['b'] [65, 0, 67]).1.staging
      = ((stagingEntriesO (freshBranchRepo ['m']).staging).filter
            (fun e => e.1 != ['a'])).filter (fun e => e.1 != ['b'])
        ++ [(['a'], hash_content (([65, 0, 66] : List Nat).take 9999)),
            (['b'], hash_content (([65, 0, 66] : List Nat).take 9999))] :=
  ⟨by decide,
    (c9_effective_content (freshBranchRepo ['m']) ['a'] ['b'] [65, 0, 66] [65, 0, 67]
      (by decide)).1,
    (c9_effective_content (freshBranchRepo ['m']) ['a'] ['b'] [65, 0, 66] [65, 0, 67]
      (by decide)).2.1,
    (c9_effective_content (freshBranchRepo ['m']) ['a'] ['b'] [65, 0, 66] [65, 0, 67]
      (by decide)).2.2.1 rfl,
    (c9_effective_content (freshBranchRepo ['m']) ['a'] ['b'] [65, 0, 66] [65, 0, 67]
      (by decide)).2.2.2 (by decide) (by decide) (by decide)⟩

/-- Claim C6 (corrected, amended): for byte content of at most 9999 bytes
with no NUL byte and a fingerprint under which no blob exists yet, put
followed by get returns the content byte-identically, and the blob persists
unchanged under every later operation sequence of the repository. -/
theorem c6_amended_put_get_roundtrip (ob : ObjStore) (c : List Nat)
    (hlen : c.length ≤ 9999) (hnz : ∀ b ∈ c, b ≠ 0)
    (hfresh : ob (hash_content c) = none) :
    getBlob (putBlob ob c).1 (hash_content c) = some c
    ∧ ∀ (s : Repo) (ops : List Op), s.objects (hash_content c) = some c →
        getBlob (runOps s ops).objects (hash_content c) = some c := by
  have hcs : cstr c = c := cstr_of_no_nul hnz
  constructor
  · have hstore : (putBlob ob c).1 (hash_content c) = some c := by
      unfold putBlob
      rw [save_blob_fresh _ hfresh, hcs]
    unfold getBlob
    rw [hstore]
    show some (c.take 9999) = some c
    rw [List.take_of_length_le hlen]
  · intro s ops hobj
    have hmono := runOps_objects_mono ops hobj
    unfold getBlob
    rw [hmono]
    show some (c.take 9999) = some c
    rw [List.take_of_length_le hlen]

theorem c6_counterexample :
    (getBlob (putBlob (fun _ => none) [65, 0, 66]).1 (hash_content [65, 0, 66]) = some [65]
      ∧ some [65] ≠ some ([65, 0, 66] : List Nat))
    ∧ (hash_content [65, 98] = hash_content [66, 65]
      ∧ getBlob (putBlob (putBlob (fun _ => none) [65, 98]).1 [66, 65]).1
          (hash_content [66, 65]) = some [65, 98]
      ∧ some [65, 98] ≠ some ([66, 65] : List Nat)) := by
  decide

theorem c6_witness :
    ([72, 105] : List Nat).length ≤ 9999
    ∧ (∀ b ∈ ([72, 105] : List Nat), b ≠ 0)
    ∧ ((fun _ => none : ObjStore) (hash_content [72, 105]) = none)
    ∧ getBlob (putBlob (fun _ => none) [72, 105]).1 (hash_content [72, 105]) = some [72, 105]
    ∧ getBlob (runOps
          { freshBranchRepo ['m'] with objects := (putBlob (fun _ => none) [72, 105]).1 }
          [Op.addF ['x'] [1], Op.commitF ['c'] ['t']]).objects (hash_content [72, 105])
        = some [72, 105] :=
  ⟨by decide, by decide, rfl,
    (c6_amended_put_get_roundtrip (fun _ => none) [72, 105] (by decide) (by decide) rfl).1,
    (c6_amended_put_get_roundtrip (fun _ => none) [72, 105] (by decide) (by decide) rfl).2
      { freshBranchRepo ['m'] with objects := (putBlob (fun _ => none) [72, 105]).1 }
      [Op.addF ['x'] [1], Op.commitF ['c'] ['t']] (by decide)⟩

/-- Claim C1 (corrected, amended): on a fresh branch, over any operation
sequence whose commit messages and timestamps contain no newline character,
the N successful commits receive exactly the ids 1..N in creation order,
the stored parent of commit k + 1 is k and of commit 1 the sentinel -1, the
next id is always allocated as max(existing ids) + 1 (here N + 1), and the
branch reference, from which the parent is resolved at commit time, holds
the id of the last commit. -/
theorem c1_amended_fresh_branch_history (bn : Line) (ops : List Op)
    (hbn : wfBranch bn) (hops : wfOps ops) :
    commitIdsOf (runOps (freshBranchRepo bn) ops).commits
      = idList (countSucc (freshBranchRepo bn) ops)
    ∧ commitParentPairs (runOps (freshBranchRepo bn) ops).commits
      = pairList (countSucc (freshBranchRepo bn) ops)
    ∧ nextCommitId (runOps (freshBranchRepo bn) ops).commits
      = (countSucc (freshBranchRepo bn) ops : Int) + 1
    ∧ (runOps (freshBranchRepo bn) ops).refs bn
      = some (if countSucc (freshBranchRepo bn) ops = 0 then ['0']
              else dec (countSucc (freshBranchRepo bn) ops)) := by
  have hinv := chainInv_run hbn (chainInv_fresh bn) hops
  rw [Nat.zero_add] at hinv
  obtain ⟨h1, h2, h3, h4⟩ := hinv
  refine ⟨h2, ?_, nextCommitId_of_ids h2, h4⟩
  unfold commitParentPairs
  rw [h3]

theorem c1_counterexample :
    countSucc (freshBranchRepo ['m', 'a', 'i', 'n'])
      [Op.addF ['a'] [104],
       Op.commitF ['x', '\n', 'C', 'O', 'M', 'M', 'I', 'T', ':', '7'] [],
       Op.addF ['a'] [105],
       Op.commitF ['y'] []] = 2
    ∧ commitIdsOf (runOps (freshBranchRepo ['m', 'a', 'i', 'n'])
      [Op.addF ['a'] [104],
       Op.commitF ['x', '\n', 'C', 'O', 'M', 'M', 'I', 'T', ':', '7'] [],
       Op.addF ['a'] [105],
       Op.commitF ['y'] []]).commits = [1, 7, 8]
    ∧ commitIdsOf (runOps (freshBranchRepo ['m', 'a', 'i', 'n'])
      [Op.addF ['a'] [104],
       Op.commitF ['x', '\n', 'C', 'O', 'M', 'M', 'I', 'T', ':', '7'] [],
       Op.addF ['a'] [105],
       Op.commitF ['y'] []]).commits ≠ idList 2
    ∧ commitParentPairs (runOps (freshBranchRepo ['m', 'a', 'i', 'n'])
      [Op.addF ['a'] [104],
       Op.commitF ['x', '\n', 'C', 'O', 'M', 'M', 'I', 'T', ':', '7'] [],
       Op.addF ['a'] [105],
       Op.commitF ['y'] []]).commits = [(7, -1), (8, 1)]
    ∧ commitParentPairs (runOps (freshBranchRepo ['m', 'a', 'i', 'n'])
      [Op.addF ['a'] [104],
       Op.commitF ['x', '\n', 'C', 'O', 'M', 'M', 'I', 'T', ':', '7'] [],
       Op.addF ['a'] [105],
       Op.commitF ['y'] []]).commits ≠ pairList 2 := by
  decide

theorem c1_witness :
    wfBranch ['m', 'a', 'i', 'n']
    ∧ wfOps [Op.addF ['a'] [104], Op.commitF ['x'] ['t'],
        Op.addF ['b'] [105], Op.commitF ['y'] ['t']]
    ∧ (commitIdsOf (runOps (freshBranchRepo ['m', 'a', 'i', 'n'])
        [Op.addF ['a'] [104], Op.commitF ['x'] ['t'],
         Op.addF ['b'] [105], Op.commitF ['y'] ['t']]).commits
      = idList (countSucc (freshBranchRepo ['m', 'a', 'i', 'n'])
        [Op.addF ['a'] [104], Op.commitF ['x'] ['t'],
         Op.addF ['b'] [105], Op.commitF ['y'] ['t']])
    ∧ commitParentPairs (runOps (freshBranchRepo ['m', 'a', 'i', 'n'])
        [Op.addF ['a'] [104], Op.commitF ['x'] ['t'],
         Op.addF ['b'] [105], Op.commitF ['y'] ['t']]).commits
      = pairList (countSucc (freshBranchRepo ['m', 'a', 'i', 'n'])
        [Op.addF ['a'] [104], Op.commitF ['x'] ['t'],
         Op.addF ['b'] [105], Op.commitF ['y'] ['t']])
    ∧ nextCommitId (runOps (freshBranchRepo ['m', 'a', 'i', 'n'])
        [Op.addF ['a'] [104], Op.commitF ['x'] ['t'],
         Op.addF ['b'] [105], Op.commitF ['y'] ['t']]).commits
      = (countSucc (freshBranchRepo ['m', 'a', 'i', 'n'])
        [Op.addF ['a'] [104], Op.commitF ['x'] ['t'],
         Op.addF ['b'] [105], Op.commitF ['y'] ['t']] : Int) + 1
    ∧ (runOps (freshBranchRepo ['m', 'a', 'i', 'n'])
        [Op.addF ['a'] [104], Op.commitF ['x'] ['t'],
         Op.addF ['b'] [105], Op.commitF ['y'] ['t']]).refs ['m', 'a', 'i', 'n']
      = some (if countSucc (freshBranchRepo ['m', 'a', 'i', 'n'])
          [Op.addF ['a'] [104], Op.commitF ['x'] ['t'],
           Op.addF ['b'] [105], Op.commitF ['y'] ['t']] = 0 then ['0']
        else dec (countSucc (freshBranchRepo ['m', 'a', 'i', 'n'])
          [Op.addF ['a'] [104], Op.commitF ['x'] ['t'],
           Op.addF ['b'] [105], Op.commitF ['y'] ['t']]))) :=
  ⟨by decide, by decide,
    c1_amended_fresh_branch_history ['m', 'a', 'i', 'n']
      [Op.addF ['a'] [104], Op.commitF ['x'] ['t'],
       Op.addF ['b'] [105], Op.commitF ['y'] ['t']] (by decide) (by decide)⟩

end MyGit
